import Mathlib

/-!
# Verification of the environment-variable-collection merge engine

Shallow embedding of `src/vs/platform/terminal/common/environmentVariableCollection.ts`:
the `MergedEnvironmentVariableCollection` constructor (the merge), the
`applyToProcessEnvironment` method (the apply engine) and the `diff` method together
with its helpers `getMissingMutatorsFromArray` and `getChangedMutatorsFromArray`.

Modelling choices:
* JavaScript's insertion-ordered `Map` (and the plain object used for the
  lowercase-key table) is embedded as an association list `List (String × α)`:
  `alistGet` is `Map.get`, `alistSet` is `Map.set` (an existing key keeps its
  position, a new key is appended at the end).
* The ambient `isWindows` global is passed as an explicit parameter.
* The optional asynchronous `VariableResolver` is embedded as an optional
  `String → Except ε String`; a rejected promise is the `Except.error` case.
  `applyToProcessEnvironment` returns the environment as mutated so far together
  with `Option ε`: `none` on a normal return, `some e` when the resolver rejected
  with `e` and the method aborted, leaving the map in its current state.
* The source reads a mutator's scope only through `scope?.workspaceFolder`, so the
  two optional levels (`scope` itself and its `workspaceFolder` field) are
  collapsed into a single `Option WorkspaceFolder`.
* A collection's `map` is keyed by variable but the source only iterates its
  values (using `mutator.variable`), so a collection is embedded as the list of
  its mutators in iteration order.
-/

/-- The `EnvironmentVariableMutatorType` enum. -/
inductive EnvironmentVariableMutatorType where
  | Append
  | Prepend
  | Replace
deriving DecidableEq

/-- An `IWorkspaceFolder` as this code reads it: only `uri.fsPath` (used by the
scope filter in the merge) and `index` (used by the changed comparison in the diff). -/
structure WorkspaceFolder where
  fsPath : String
  index : Nat
deriving DecidableEq

/-- An `IEnvironmentVariableMutator` stored in one extension's collection.
`variable_` stands for the source's `variable` field (a keyword in Lean). -/
structure EnvironmentVariableMutator where
  variable_ : String
  type : EnvironmentVariableMutatorType
  value : String
  scope : Option WorkspaceFolder
deriving DecidableEq

/-- An `IExtensionOwnedEnvironmentVariableMutator`: the record the merge pushes onto
`variableMap`, copying the mutator's fields and tagging the contributing extension. -/
structure ExtensionOwnedEnvironmentVariableMutator where
  extensionIdentifier : String
  value : String
  type : EnvironmentVariableMutatorType
  scope : Option WorkspaceFolder
  variable_ : String
deriving DecidableEq

/-- The `variableMap` of a merged collection: variable name to its ordered mutator list. -/
abbrev VarMap := List (String × List ExtensionOwnedEnvironmentVariableMutator)

/-- An `IProcessEnvironment`: insertion-ordered string-to-string map. -/
abbrev Env := List (String × String)

/-- JS `Map.get` on an insertion-ordered association list. -/
def alistGet {α : Type} : List (String × α) → String → Option α
  | [], _ => none
  | p :: rest, key => if p.1 = key then some p.2 else alistGet rest key

/-- JS `Map.set` on an insertion-ordered association list: an existing key keeps its
position and gets the new value, a new key is appended at the end. -/
def alistSet {α : Type} : List (String × α) → String → α → List (String × α)
  | [], key, val => [(key, val)]
  | p :: rest, key, val =>
    if p.1 = key then (key, val) :: rest else p :: alistSet rest key val

/-- The scope filter in the merge constructor: the result is `false` exactly when the
loop hits `continue` because `owningWorkspace` is set, the mutator's scope names a
workspace folder, and the two `fsPath`s differ. -/
def scopeMatchesOwning (owningWorkspace : Option WorkspaceFolder)
    (scope : Option WorkspaceFolder) : Bool :=
  match owningWorkspace, scope with
  | some ow, some wf => wf.fsPath == ow.fsPath
  | _, _ => true

/-- The record literal unshifted by the merge constructor: the mutator's fields plus
the contributing extension's identifier. -/
def toOwnedMutator (extensionIdentifier : String) (m : EnvironmentVariableMutator) :
    ExtensionOwnedEnvironmentVariableMutator :=
  { extensionIdentifier := extensionIdentifier, value := m.value, type := m.type,
    scope := m.scope, variable_ := m.variable_ }

/-- The guard `entry.length > 0 && entry[0].type === EnvironmentVariableMutatorType.Replace`. -/
def entryStartsWithReplace : List ExtensionOwnedEnvironmentVariableMutator → Bool
  | [] => false
  | first :: _ => first.type == EnvironmentVariableMutatorType.Replace

/-- One iteration of the `MergedEnvironmentVariableCollection` constructor's inner loop:
skip the mutator when the scope filter rejects it or when the variable's entry already
starts with a `Replace`; otherwise unshift the extension-owned copy onto the entry
(`(alistGet vm v).getD []` is the freshly created `[]` when the variable is new). -/
def mergeMutator (owningWorkspace : Option WorkspaceFolder) (extensionIdentifier : String)
    (vm : VarMap) (mutator : EnvironmentVariableMutator) : VarMap :=
  if scopeMatchesOwning owningWorkspace mutator.scope then
    let entry := (alistGet vm mutator.variable_).getD []
    if entryStartsWithReplace entry then vm
    else alistSet vm mutator.variable_ (toOwnedMutator extensionIdentifier mutator :: entry)
  else vm

/-- Processing one `(extensionIdentifier, collection)` pair of the constructor's outer loop. -/
def mergeCollection (owningWorkspace : Option WorkspaceFolder) (vm : VarMap)
    (collection : String × List EnvironmentVariableMutator) : VarMap :=
  collection.2.foldl (mergeMutator owningWorkspace collection.1) vm

/-- The `variableMap` built by the `MergedEnvironmentVariableCollection` constructor from
the ordered `collections` map and the optional `owningWorkspace`. -/
def mergedEnvironmentVariableCollection
    (collections : List (String × List EnvironmentVariableMutator))
    (owningWorkspace : Option WorkspaceFolder) : VarMap :=
  collections.foldl (mergeCollection owningWorkspace) []

/-- JS `String.prototype.toLowerCase()`, modelled character by character (structural
recursion so that concrete instances reduce in the kernel). -/
def toLowerCase (s : String) : String :=
  String.mk (s.data.map Char.toLower)

/-- The one-time `lowerToActualVariableNames` table: for every existing environment key
`e`, `e.toLowerCase()` maps to `e` (a later key with the same lowercasing wins). -/
def buildLowerToActual (env : Env) : List (String × String) :=
  env.foldl (fun acc p => alistSet acc (toLowerCase p.1) p.1) []

/-- `const actualVariable = isWindows ? lowerToActualVariableNames![variable.toLowerCase()] || variable : variable`
(the `|| variable` also fires on the JS-falsy empty string). -/
def actualVariableName (isWindows : Bool) (lowerToActual : List (String × String))
    (v : String) : String :=
  if isWindows then
    match alistGet lowerToActual (toLowerCase v) with
    | some actual => if actual = "" then v else actual
    | none => v
  else v

/-- `variableResolver ? await variableResolver(mutator.value) : mutator.value`. -/
def resolveValue {ε : Type} (variableResolver : Option (String → Except ε String))
    (value : String) : Except ε String :=
  match variableResolver with
  | some resolve => resolve value
  | none => Except.ok value

/-- The `switch (mutator.type)` body: `env[actualVariable] || ''` is `getD ""`. -/
def mutateEnv (env : Env) (actualVariable : String)
    (type : EnvironmentVariableMutatorType) (value : String) : Env :=
  match type with
  | .Append => alistSet env actualVariable ((alistGet env actualVariable).getD "" ++ value)
  | .Prepend => alistSet env actualVariable (value ++ (alistGet env actualVariable).getD "")
  | .Replace => alistSet env actualVariable value

/-- The inner `for (const mutator of mutators)` loop of `applyToProcessEnvironment`:
each value is resolved strictly in sequence; a resolver rejection returns the
environment as mutated so far together with the error. -/
def applyMutators {ε : Type} (variableResolver : Option (String → Except ε String))
    (actualVariable : String) (env : Env) :
    List ExtensionOwnedEnvironmentVariableMutator → Env × Option ε
  | [] => (env, none)
  | mutator :: rest =>
    match resolveValue variableResolver mutator.value with
    | Except.error e => (env, some e)
    | Except.ok value =>
      applyMutators variableResolver actualVariable
        (mutateEnv env actualVariable mutator.type value) rest

/-- The outer `for (const [variable, mutators] of this.variableMap)` loop:
`actualVariableName` is computed once per variable, and a resolver failure inside
`applyMutators` aborts the remaining variables. -/
def applyVariables {ε : Type} (isWindows : Bool) (lowerToActual : List (String × String))
    (variableResolver : Option (String → Except ε String)) (env : Env) :
    VarMap → Env × Option ε
  | [] => (env, none)
  | (v, mutators) :: rest =>
    match applyMutators variableResolver (actualVariableName isWindows lowerToActual v)
        env mutators with
    | (env2, some e) => (env2, some e)
    | (env2, none) => applyVariables isWindows lowerToActual variableResolver env2 rest

/-- `applyToProcessEnvironment(env, variableResolver)` on a merged collection's
`variableMap`, with the `isWindows` global as an explicit argument: the lowercase
table is built once from `env`'s keys before any mutator is applied. -/
def applyToProcessEnvironment {ε : Type} (isWindows : Bool) (vm : VarMap) (env : Env)
    (variableResolver : Option (String → Except ε String)) : Env × Option ε :=
  applyVariables isWindows (if isWindows then buildLowerToActual env else [])
    variableResolver env vm

/-- `getMissingMutatorsFromArray`: when `other` is missing the whole `current` array is
returned (even when it is empty — a JS array is truthy); otherwise the mutators of
`current` whose extension does not occur in `other`, or `undefined` when none. -/
def getMissingMutatorsFromArray
    (current : List ExtensionOwnedEnvironmentVariableMutator)
    (other : Option (List ExtensionOwnedEnvironmentVariableMutator)) :
    Option (List ExtensionOwnedEnvironmentVariableMutator) :=
  match other with
  | none => some current
  | some other =>
    let otherMutatorExtensions := other.map (fun m => m.extensionIdentifier)
    let result := current.filter
      (fun m => !(otherMutatorExtensions.contains m.extensionIdentifier))
    if result.isEmpty then none else some result

/-- The `otherMutatorExtensions` map of `getChangedMutatorsFromArray`: extension
identifier to mutator, a later entry for the same extension overwriting an earlier one. -/
def extensionToMutatorMap (other : List ExtensionOwnedEnvironmentVariableMutator) :
    List (String × ExtensionOwnedEnvironmentVariableMutator) :=
  other.foldl (fun acc m => alistSet acc m.extensionIdentifier m) []

/-- `scope?.workspaceFolder?.index` as read by the changed comparison. -/
def scopeFolderIndex : Option WorkspaceFolder → Option Nat
  | none => none
  | some wf => some wf.index

/-- The inequality test of `getChangedMutatorsFromArray`: differing `type`, `value`, or
workspace-folder `index` of the scope. -/
def mutatorsDiffer (m om : ExtensionOwnedEnvironmentVariableMutator) : Bool :=
  m.type != om.type || m.value != om.value ||
    scopeFolderIndex m.scope != scopeFolderIndex om.scope

/-- `getChangedMutatorsFromArray`: for each `current` mutator, when a same-extension
`other` mutator exists and differs, push the `other` mutator; `undefined` when the
`other` array is missing or nothing differs. -/
def getChangedMutatorsFromArray
    (current : List ExtensionOwnedEnvironmentVariableMutator)
    (other : Option (List ExtensionOwnedEnvironmentVariableMutator)) :
    Option (List ExtensionOwnedEnvironmentVariableMutator) :=
  match other with
  | none => none
  | some other =>
    let result := current.filterMap (fun mutator =>
      match alistGet (extensionToMutatorMap other) mutator.extensionIdentifier with
      | some otherMutator =>
        if mutatorsDiffer mutator otherMutator then some otherMutator else none
      | none => none)
    if result.isEmpty then none else some result

/-- An `IMergedEnvironmentVariableCollectionDiff`. -/
structure MergedEnvironmentVariableCollectionDiff where
  added : VarMap
  changed : VarMap
  removed : VarMap
deriving DecidableEq

/-- The "Find added" loop of `diff`: iterate `other.variableMap`, collecting the
mutators missing from `current`. -/
def computeAdded (current other : VarMap) : VarMap :=
  other.filterMap (fun p =>
    (getMissingMutatorsFromArray p.2 (alistGet current p.1)).map (fun r => (p.1, r)))

/-- The "Find removed" loop of `diff`: iterate `current` (`this.variableMap`),
collecting the mutators missing from `other`. -/
def computeRemoved (current other : VarMap) : VarMap :=
  current.filterMap (fun p =>
    (getMissingMutatorsFromArray p.2 (alistGet other p.1)).map (fun r => (p.1, r)))

/-- The "Find changed" loop of `diff`. -/
def computeChanged (current other : VarMap) : VarMap :=
  current.filterMap (fun p =>
    (getChangedMutatorsFromArray p.2 (alistGet other p.1)).map (fun r => (p.1, r)))

/-- `diff(other)` on a merged collection (`current` is `this.variableMap`): `none`
(`undefined`) when the three computed maps are all empty, otherwise the triple. -/
def diff (current other : VarMap) : Option MergedEnvironmentVariableCollectionDiff :=
  if (computeAdded current other).isEmpty && (computeChanged current other).isEmpty &&
      (computeRemoved current other).isEmpty then
    none
  else
    some { added := computeAdded current other, changed := computeChanged current other,
           removed := computeRemoved current other }

/-- The `added` map of an optional diff result (`undefined` contributes the empty map). -/
def diffAdded : Option MergedEnvironmentVariableCollectionDiff → VarMap
  | none => []
  | some d => d.added

/-- The `removed` map of an optional diff result (`undefined` contributes the empty map). -/
def diffRemoved : Option MergedEnvironmentVariableCollectionDiff → VarMap
  | none => []
  | some d => d.removed

/-! ## Helper lemmas about the ordered-map embedding -/

theorem alistGet_set_self {α : Type} (l : List (String × α)) (k : String) (v : α) :
    alistGet (alistSet l k v) k = some v := by
  induction l with
  | nil => simp [alistGet, alistSet]
  | cons p rest ih =>
    by_cases hp : p.1 = k
    · simp [alistSet, hp, alistGet]
    · simp [alistSet, hp, alistGet, ih]

theorem alistGet_set_ne {α : Type} (l : List (String × α)) {k' k : String} (v : α)
    (h : k' ≠ k) : alistGet (alistSet l k' v) k = alistGet l k := by
  induction l with
  | nil => simp [alistGet, alistSet, h]
  | cons p rest ih =>
    by_cases hp : p.1 = k'
    · simp [alistSet, hp, alistGet, h, ih]
    · simp [alistSet, hp, alistGet, ih]

theorem mem_alistSet {α : Type} {l : List (String × α)} {k : String} {v : α}
    {p : String × α} (h : p ∈ alistSet l k v) : p = (k, v) ∨ p ∈ l := by
  induction l with
  | nil => simpa [alistSet] using h
  | cons q rest ih =>
    by_cases hq : q.1 = k
    · simp only [alistSet, hq, if_pos rfl] at h
      rcases List.mem_cons.mp h with h | h
      · exact Or.inl h
      · exact Or.inr (List.mem_cons_of_mem _ h)
    · simp only [alistSet, if_neg hq] at h
      rcases List.mem_cons.mp h with h | h
      · exact Or.inr (h ▸ List.mem_cons_self _ _)
      · rcases ih h with h' | h'
        · exact Or.inl h'
        · exact Or.inr (List.mem_cons_of_mem _ h')

theorem alistGet_mem {α : Type} {l : List (String × α)} {k : String} {v : α}
    (h : alistGet l k = some v) : (k, v) ∈ l := by
  induction l with
  | nil => simp [alistGet] at h
  | cons p rest ih =>
    obtain ⟨a, b⟩ := p
    by_cases hp : a = k
    · simp only [alistGet, if_pos hp] at h
      obtain rfl : b = v := Option.some.inj h
      subst hp
      exact List.mem_cons_self _ _
    · simp only [alistGet, if_neg hp] at h
      exact List.mem_cons_of_mem _ (ih h)

theorem alistGet_eq_of_nodup {α : Type} {l : List (String × α)} {k : String} {v : α}
    (hnd : (l.map Prod.fst).Nodup) (h : (k, v) ∈ l) : alistGet l k = some v := by
  induction l with
  | nil => simp at h
  | cons p rest ih =>
    rcases List.mem_cons.mp h with h | h
    · subst h
      simp [alistGet]
    · rw [List.map_cons] at hnd
      obtain ⟨h1, h2⟩ := List.nodup_cons.mp hnd
      have hp : p.1 ≠ k := by
        intro hk
        exact h1 (hk ▸ List.mem_map.mpr ⟨(k, v), h, rfl⟩)
      simp only [alistGet, if_neg hp]
      exact ih h2 h

theorem foldl_preserves {α σ : Type _} {f : σ → α → σ} {P : σ → Prop}
    (h : ∀ s a, P s → P (f s a)) :
    ∀ (l : List α) (s : σ), P s → P (l.foldl f s) := by
  intro l
  induction l with
  | nil => intro s hs; simpa using hs
  | cons a rest ih =>
    intro s hs
    simpa using ih (f s a) (h s a hs)

theorem foldl_preserves_mem {α σ : Type _} {f : σ → α → σ} {P : σ → Prop} :
    ∀ (l : List α), (∀ s a, a ∈ l → P s → P (f s a)) →
      ∀ (s : σ), P s → P (l.foldl f s) := by
  intro l
  induction l with
  | nil => intro _ s hs; simpa using hs
  | cons a rest ih =>
    intro h s hs
    simpa using ih (fun s' a' ha' => h s' a' (List.mem_cons_of_mem _ ha'))
      (f s a) (h s a (List.mem_cons_self _ _) hs)

/-! ## Merge engine lemmas -/

/-- The three possible outcomes of one constructor-loop iteration: scope-filtered,
short-circuited by a leading `Replace`, or unshifted onto the entry. -/
theorem mergeMutator_cases (ow : Option WorkspaceFolder) (ext : String) (vm : VarMap)
    (m : EnvironmentVariableMutator) :
    (scopeMatchesOwning ow m.scope = false ∧ mergeMutator ow ext vm m = vm) ∨
    (scopeMatchesOwning ow m.scope = true ∧
      entryStartsWithReplace ((alistGet vm m.variable_).getD []) = true ∧
      mergeMutator ow ext vm m = vm) ∨
    (scopeMatchesOwning ow m.scope = true ∧
      entryStartsWithReplace ((alistGet vm m.variable_).getD []) = false ∧
      mergeMutator ow ext vm m =
        alistSet vm m.variable_
          (toOwnedMutator ext m :: (alistGet vm m.variable_).getD [])) := by
  by_cases h1 : scopeMatchesOwning ow m.scope = true
  · by_cases h2 : entryStartsWithReplace ((alistGet vm m.variable_).getD []) = true
    · exact Or.inr (Or.inl ⟨h1, h2, by simp [mergeMutator, h1, h2]⟩)
    · refine Or.inr (Or.inr ⟨h1, by simpa using h2, ?_⟩)
      simp only [mergeMutator, h1, if_true]
      rw [if_neg h2]
  · exact Or.inl ⟨by simpa using h1, by simp [mergeMutator, h1]⟩

/-- An entry whose `getD []` starts with a `Replace` is a real, present entry. -/
theorem exists_entry_of_startsWithReplace {vm : VarMap} {v : String}
    (h : entryStartsWithReplace ((alistGet vm v).getD []) = true) :
    ∃ e, alistGet vm v = some e ∧ entryStartsWithReplace e = true := by
  cases hg : alistGet vm v with
  | none => rw [hg] at h; simp [entryStartsWithReplace] at h
  | some e => exact ⟨e, rfl, by rwa [hg] at h⟩

/-- Once a variable's entry starts with a `Replace`, no later merge step changes it. -/
theorem mergeMutator_frozen {vm : VarMap} {v : String}
    {e : List ExtensionOwnedEnvironmentVariableMutator}
    (hget : alistGet vm v = some e) (hrep : entryStartsWithReplace e = true)
    (ow : Option WorkspaceFolder) (ext : String) (m : EnvironmentVariableMutator) :
    alistGet (mergeMutator ow ext vm m) v = some e := by
  rcases mergeMutator_cases ow ext vm m with ⟨_, h⟩ | ⟨_, _, h⟩ | ⟨_, h2, h⟩
  · rw [h, hget]
  · rw [h, hget]
  · by_cases hv : m.variable_ = v
    · rw [hv, hget] at h2
      simp only [Option.getD_some] at h2
      rw [h2] at hrep
      exact absurd hrep (by simp)
    · rw [h, alistGet_set_ne _ _ hv, hget]

/-- Collection-level version of `mergeMutator_frozen`. -/
theorem mergeCollection_frozen {v : String}
    {e : List ExtensionOwnedEnvironmentVariableMutator}
    (hrep : entryStartsWithReplace e = true) (ow : Option WorkspaceFolder)
    (c : String × List EnvironmentVariableMutator) :
    ∀ vm : VarMap, alistGet vm v = some e → alistGet (mergeCollection ow vm c) v = some e := by
  intro vm h
  show alistGet (c.2.foldl (mergeMutator ow c.1) vm) v = some e
  exact foldl_preserves (P := fun s => alistGet s v = some e)
    (fun s a hs => mergeMutator_frozen hs hrep ow c.1 a) c.2 vm h

/-- Processing a collection that holds a scope-passing `Replace` mutator for `v` leaves
the entry for `v` present and headed by a `Replace`. -/
theorem mergeCollection_replace {ow : Option WorkspaceFolder} {ext : String}
    {col : List EnvironmentVariableMutator} {m : EnvironmentVariableMutator}
    (hmem : m ∈ col) (hrep : m.type = EnvironmentVariableMutatorType.Replace)
    (hscope : scopeMatchesOwning ow m.scope = true) :
    ∀ vm : VarMap, ∃ e,
      alistGet (mergeCollection ow vm (ext, col)) m.variable_ = some e ∧
        entryStartsWithReplace e = true := by
  induction col with
  | nil => cases hmem
  | cons c rest ih =>
    intro vm
    have hstep : mergeCollection ow vm (ext, c :: rest) =
        mergeCollection ow (mergeMutator ow ext vm c) (ext, rest) := by
      simp [mergeCollection]
    rcases List.mem_cons.mp hmem with hmc | hmrest
    · subst hmc
      rcases mergeMutator_cases ow ext vm m with ⟨h1, _⟩ | ⟨_, h2, h3⟩ | ⟨_, h2, h3⟩
      · rw [hscope] at h1; cases h1
      · obtain ⟨e, hge, hse⟩ := exists_entry_of_startsWithReplace h2
        refine ⟨e, ?_, hse⟩
        rw [hstep]
        exact mergeCollection_frozen hse ow (ext, rest) _ (by rw [h3, hge])
      · refine ⟨toOwnedMutator ext m :: (alistGet vm m.variable_).getD [], ?_, ?_⟩
        · rw [hstep]
          refine mergeCollection_frozen ?_ ow (ext, rest) _ ?_
          · simp [entryStartsWithReplace, toOwnedMutator, hrep]
          · rw [h3, alistGet_set_self]
        · simp [entryStartsWithReplace, toOwnedMutator, hrep]
    · rw [hstep]
      exact ih hmrest (mergeMutator ow ext vm c)

/-- Under the tail invariant, an entry not starting with a `Replace` contains no
`Replace` at all. -/
theorem entry_all_not_replace {vm : VarMap}
    (hvm : ∀ p ∈ vm, ∀ x ∈ p.2.tail, x.type ≠ EnvironmentVariableMutatorType.Replace)
    {v : String}
    (hsw : entryStartsWithReplace ((alistGet vm v).getD []) = false) :
    ∀ x ∈ (alistGet vm v).getD [], x.type ≠ EnvironmentVariableMutatorType.Replace := by
  cases hg : alistGet vm v with
  | none => simp
  | some e =>
    rw [hg] at hsw
    simp only [Option.getD_some] at hsw ⊢
    cases e with
    | nil => simp
    | cons e0 erest =>
      intro x hx
      rcases List.mem_cons.mp hx with rfl | hx'
      · simpa [entryStartsWithReplace] using hsw
      · exact hvm (v, e0 :: erest) (alistGet_mem hg) x hx'

/-- One merge step preserves the invariant "entries after the first are never `Replace`". -/
theorem mergeMutator_tail_invariant (ow : Option WorkspaceFolder) (ext : String)
    (m : EnvironmentVariableMutator) {vm : VarMap}
    (hvm : ∀ p ∈ vm, ∀ x ∈ p.2.tail, x.type ≠ EnvironmentVariableMutatorType.Replace) :
    ∀ p ∈ mergeMutator ow ext vm m, ∀ x ∈ p.2.tail,
      x.type ≠ EnvironmentVariableMutatorType.Replace := by
  rcases mergeMutator_cases ow ext vm m with ⟨_, h⟩ | ⟨_, _, h⟩ | ⟨_, h2, h⟩
  · rw [h]; exact hvm
  · rw [h]; exact hvm
  · rw [h]
    intro p hp x hx
    rcases mem_alistSet hp with rfl | hpvm
    · exact entry_all_not_replace hvm h2 x (by simpa using hx)
    · exact hvm p hpvm x hx

/-- Every merged collection satisfies the tail invariant. -/
theorem merged_tail_invariant (collections : List (String × List EnvironmentVariableMutator))
    (ow : Option WorkspaceFolder) :
    ∀ p ∈ mergedEnvironmentVariableCollection collections ow, ∀ x ∈ p.2.tail,
      x.type ≠ EnvironmentVariableMutatorType.Replace := by
  show ∀ p ∈ collections.foldl (mergeCollection ow) [], ∀ x ∈ p.2.tail,
    x.type ≠ EnvironmentVariableMutatorType.Replace
  refine foldl_preserves
    (P := fun vm : VarMap => ∀ p ∈ vm, ∀ x ∈ p.2.tail,
      x.type ≠ EnvironmentVariableMutatorType.Replace) ?_ collections [] (by simp)
  intro s c hs
  exact foldl_preserves
    (P := fun vm : VarMap => ∀ p ∈ vm, ∀ x ∈ p.2.tail,
      x.type ≠ EnvironmentVariableMutatorType.Replace)
    (fun s' a hs' => mergeMutator_tail_invariant ow c.1 a hs') c.2 s hs

/-- **C1** counterexample: merge `ext.a` contributing `Append "1"` and then `ext.b`
contributing `Replace "2"` for `FOO` with no owning scope. The merged sequence for
`FOO` is `[Replace (ext.b), Append (ext.a)]`: its first entry has type `Replace`, yet
the sequence has a second entry, refuting the claim that the sequence then contains no
other entries. -/
theorem c1_counterexample :
    alistGet (mergedEnvironmentVariableCollection
        [("ext.a", [⟨"FOO", EnvironmentVariableMutatorType.Append, "1", none⟩]),
         ("ext.b", [⟨"FOO", EnvironmentVariableMutatorType.Replace, "2", none⟩])] none)
        "FOO" =
      some [⟨"ext.b", "2", EnvironmentVariableMutatorType.Replace, none, "FOO"⟩,
            ⟨"ext.a", "1", EnvironmentVariableMutatorType.Append, none, "FOO"⟩] ∧
    entryStartsWithReplace ((alistGet (mergedEnvironmentVariableCollection
        [("ext.a", [⟨"FOO", EnvironmentVariableMutatorType.Append, "1", none⟩]),
         ("ext.b", [⟨"FOO", EnvironmentVariableMutatorType.Replace, "2", none⟩])] none)
        "FOO").getD []) = true ∧
    ((alistGet (mergedEnvironmentVariableCollection
        [("ext.a", [⟨"FOO", EnvironmentVariableMutatorType.Append, "1", none⟩]),
         ("ext.b", [⟨"FOO", EnvironmentVariableMutatorType.Replace, "2", none⟩])] none)
        "FOO").getD []).length ≠ 1 := by
  decide

/-- **C1** (amended): for every merged collection and every variable entry, every
mutator after the first in the sequence has a type other than `Replace` — so when the
first entry is a `Replace` it is the only `Replace` in the sequence, but non-`Replace`
entries contributed by earlier-registered extensions may still follow it. -/
theorem c1_tail_of_merged_entry_never_replace
    (collections : List (String × List EnvironmentVariableMutator))
    (ow : Option WorkspaceFolder) (v : String)
    (entry : List ExtensionOwnedEnvironmentVariableMutator)
    (hget : alistGet (mergedEnvironmentVariableCollection collections ow) v = some entry) :
    ∀ m ∈ entry.tail, m.type ≠ EnvironmentVariableMutatorType.Replace :=
  fun m hm => merged_tail_invariant collections ow (v, entry) (alistGet_mem hget) m hm

theorem c1_witness :
    (⟨"ext.a", "1", EnvironmentVariableMutatorType.Append, none, "FOO"⟩ :
        ExtensionOwnedEnvironmentVariableMutator).type ≠
      EnvironmentVariableMutatorType.Replace :=
  c1_tail_of_merged_entry_never_replace
    [("ext.a", [⟨"FOO", EnvironmentVariableMutatorType.Append, "1", none⟩]),
     ("ext.b", [⟨"FOO", EnvironmentVariableMutatorType.Replace, "2", none⟩])] none "FOO"
    [⟨"ext.b", "2", EnvironmentVariableMutatorType.Replace, none, "FOO"⟩,
     ⟨"ext.a", "1", EnvironmentVariableMutatorType.Append, none, "FOO"⟩]
    (by decide) _ (by decide)

/-- **C4** counterexample: with the merge scoped to folder `/w1`, extension `ext.a`
(registered first) contributes a `Replace` for `FOO` scoped to a different folder
`/w2`; the scope filter drops it, and the later extension `ext.b`'s `Append` for `FOO`
still appears in the merged collection — refuting the claim for scoped merges. -/
theorem c4_counterexample :
    alistGet (mergedEnvironmentVariableCollection
        [("ext.a", [⟨"FOO", EnvironmentVariableMutatorType.Replace, "1", some ⟨"/w2", 1⟩⟩]),
         ("ext.b", [⟨"FOO", EnvironmentVariableMutatorType.Append, "2", none⟩])]
        (some ⟨"/w1", 0⟩)) "FOO" =
      some [⟨"ext.b", "2", EnvironmentVariableMutatorType.Append, none, "FOO"⟩] := by
  decide

/-- **C4** (amended): if an extension contributes a `Replace` mutator for a variable
and that mutator passes the merge's scope filter, then the merged entry for that
variable is exactly what it would be with all later-registered collections removed:
no mutator from any extension registered after it contributes, regardless of type. -/
theorem c4_replace_blocks_later_extensions
    (pre post : List (String × List EnvironmentVariableMutator))
    (extA : String) (colA : List EnvironmentVariableMutator)
    (ow : Option WorkspaceFolder) (m : EnvironmentVariableMutator)
    (hmem : m ∈ colA) (hrep : m.type = EnvironmentVariableMutatorType.Replace)
    (hscope : scopeMatchesOwning ow m.scope = true) :
    alistGet (mergedEnvironmentVariableCollection (pre ++ (extA, colA) :: post) ow)
        m.variable_ =
      alistGet (mergedEnvironmentVariableCollection (pre ++ [(extA, colA)]) ow)
        m.variable_ := by
  unfold mergedEnvironmentVariableCollection
  rw [List.foldl_append, List.foldl_append]
  simp only [List.foldl_cons, List.foldl_nil]
  obtain ⟨e, he, hse⟩ := mergeCollection_replace hmem hrep hscope
    (List.foldl (mergeCollection ow) [] pre)
  rw [he]
  exact foldl_preserves (P := fun vm => alistGet vm m.variable_ = some e)
    (fun s c hs => mergeCollection_frozen hse ow c s hs) post _ he

theorem c4_witness :
    alistGet (mergedEnvironmentVariableCollection
        ([("p", [⟨"FOO", EnvironmentVariableMutatorType.Append, "0", none⟩])] ++
          ("ext.b", [⟨"FOO", EnvironmentVariableMutatorType.Replace, "2", none⟩]) ::
            [("ext.c", [⟨"FOO", EnvironmentVariableMutatorType.Append, "3", none⟩])]) none)
        "FOO" =
      alistGet (mergedEnvironmentVariableCollection
        ([("p", [⟨"FOO", EnvironmentVariableMutatorType.Append, "0", none⟩])] ++
          [("ext.b", [⟨"FOO", EnvironmentVariableMutatorType.Replace, "2", none⟩])]) none)
        "FOO" :=
  c4_replace_blocks_later_extensions _ _ _ _ _
    ⟨"FOO", EnvironmentVariableMutatorType.Replace, "2", none⟩
    (by decide) (by decide) (by decide)

/-- One merge step preserves the invariant "every stored mutator passes the scope
filter for this merge's owning workspace". -/
theorem mergeMutator_scope_invariant (ow : Option WorkspaceFolder) (ext : String)
    (m : EnvironmentVariableMutator) {vm : VarMap}
    (hvm : ∀ p ∈ vm, ∀ x ∈ p.2, scopeMatchesOwning ow x.scope = true) :
    ∀ p ∈ mergeMutator ow ext vm m, ∀ x ∈ p.2,
      scopeMatchesOwning ow x.scope = true := by
  rcases mergeMutator_cases ow ext vm m with ⟨_, h⟩ | ⟨_, _, h⟩ | ⟨h1, _, h⟩
  · rw [h]; exact hvm
  · rw [h]; exact hvm
  · rw [h]
    intro p hp x hx
    rcases mem_alistSet hp with rfl | hpvm
    · rcases List.mem_cons.mp (by simpa using hx) with rfl | hx'
      · simpa [toOwnedMutator] using h1
      · cases hg : alistGet vm m.variable_ with
        | none => rw [hg] at hx'; simp at hx'
        | some e =>
          rw [hg] at hx'
          exact hvm _ (alistGet_mem hg) x (by simpa using hx')
    · exact hvm p hpvm x hx

/-- Every mutator stored in a merged collection passes the scope filter. -/
theorem merged_scope_invariant
    (collections : List (String × List EnvironmentVariableMutator))
    (ow : Option WorkspaceFolder) :
    ∀ p ∈ mergedEnvironmentVariableCollection collections ow, ∀ x ∈ p.2,
      scopeMatchesOwning ow x.scope = true := by
  show ∀ p ∈ collections.foldl (mergeCollection ow) [], ∀ x ∈ p.2,
    scopeMatchesOwning ow x.scope = true
  refine foldl_preserves
    (P := fun vm : VarMap => ∀ p ∈ vm, ∀ x ∈ p.2,
      scopeMatchesOwning ow x.scope = true) ?_ collections [] (by simp)
  intro s c hs
  exact foldl_preserves
    (P := fun vm : VarMap => ∀ p ∈ vm, ∀ x ∈ p.2,
      scopeMatchesOwning ow x.scope = true)
    (fun s' a hs' => mergeMutator_scope_invariant ow c.1 a hs') c.2 s hs

/-- One merge step preserves "the entry for `v` exists and either contains `om` or
starts with a `Replace`": entries only ever grow at the front, and an entry headed by a
`Replace` is frozen. -/
theorem mergeMutator_preserves_entry_fact {v : String}
    {om : ExtensionOwnedEnvironmentVariableMutator} {vm : VarMap}
    (hex : ∃ e, alistGet vm v = some e ∧
      (om ∈ e ∨ entryStartsWithReplace e = true))
    (ow : Option WorkspaceFolder) (ext : String) (m : EnvironmentVariableMutator) :
    ∃ e, alistGet (mergeMutator ow ext vm m) v = some e ∧
      (om ∈ e ∨ entryStartsWithReplace e = true) := by
  obtain ⟨e, hge, hfact⟩ := hex
  rcases mergeMutator_cases ow ext vm m with ⟨_, h⟩ | ⟨_, _, h⟩ | ⟨_, h2, h⟩
  · exact ⟨e, by rw [h, hge], hfact⟩
  · exact ⟨e, by rw [h, hge], hfact⟩
  · by_cases hv : m.variable_ = v
    · subst hv
      rcases hfact with hom | hrep
      · refine ⟨toOwnedMutator ext m :: e, ?_, Or.inl (List.mem_cons_of_mem _ hom)⟩
        rw [h]
        have hentry : (alistGet vm m.variable_).getD [] = e := by rw [hge]; rfl
        rw [hentry, alistGet_set_self]
      · rw [hge] at h2
        simp only [Option.getD_some] at h2
        rw [h2] at hrep
        cases hrep
    · exact ⟨e, by rw [h, alistGet_set_ne _ _ hv, hge], hfact⟩

/-- Collection-level version of `mergeMutator_preserves_entry_fact`. -/
theorem mergeCollection_preserves_entry_fact {v : String}
    {om : ExtensionOwnedEnvironmentVariableMutator} (ow : Option WorkspaceFolder)
    (c : String × List EnvironmentVariableMutator) :
    ∀ vm : VarMap,
      (∃ e, alistGet vm v = some e ∧ (om ∈ e ∨ entryStartsWithReplace e = true)) →
      ∃ e, alistGet (mergeCollection ow vm c) v = some e ∧
        (om ∈ e ∨ entryStartsWithReplace e = true) := by
  intro vm h
  show ∃ e, alistGet (c.2.foldl (mergeMutator ow c.1) vm) v = some e ∧
    (om ∈ e ∨ entryStartsWithReplace e = true)
  exact foldl_preserves
    (P := fun s : VarMap => ∃ e, alistGet s v = some e ∧
      (om ∈ e ∨ entryStartsWithReplace e = true))
    (fun s a hs => mergeMutator_preserves_entry_fact hs ow c.1 a) c.2 vm h

/-- Processing the collection that holds the scope-passing mutator `m` makes the
entry fact true. -/
theorem mergeCollection_establishes_entry_fact {ow : Option WorkspaceFolder}
    {ext : String} {col : List EnvironmentVariableMutator}
    {m : EnvironmentVariableMutator} (hmem : m ∈ col)
    (hscope : scopeMatchesOwning ow m.scope = true) :
    ∀ vm : VarMap,
      ∃ e, alistGet (mergeCollection ow vm (ext, col)) m.variable_ = some e ∧
        (toOwnedMutator ext m ∈ e ∨ entryStartsWithReplace e = true) := by
  induction col with
  | nil => cases hmem
  | cons c rest ih =>
    intro vm
    have hstep : mergeCollection ow vm (ext, c :: rest) =
        mergeCollection ow (mergeMutator ow ext vm c) (ext, rest) := by
      simp [mergeCollection]
    rcases List.mem_cons.mp hmem with hmc | hmrest
    · subst hmc
      rw [hstep]
      refine mergeCollection_preserves_entry_fact ow (ext, rest) _ ?_
      rcases mergeMutator_cases ow ext vm m with ⟨h1, _⟩ | ⟨_, h2, h3⟩ | ⟨_, h2, h3⟩
      · rw [hscope] at h1; cases h1
      · obtain ⟨e, hge, hse⟩ := exists_entry_of_startsWithReplace h2
        exact ⟨e, by rw [h3, hge], Or.inr hse⟩
      · refine ⟨toOwnedMutator ext m :: (alistGet vm m.variable_).getD [], ?_,
          Or.inl (List.mem_cons_self _ _)⟩
        rw [h3, alistGet_set_self]
    · rw [hstep]
      exact ih hmrest (mergeMutator ow ext vm c)

/-- **C5**: Scope filtering. First part: in a merge owned by workspace folder `ow`, every
mutator appearing in the merged collection whose scope names a workspace folder names a
folder with `ow`'s `fsPath` — so a mutator scoped to a different folder never appears.
Second part: a mutator scoped to folder `wf` appears in the merged collection (as its
extension-owned copy, in the entry of its variable) whenever the merge is unscoped or
owned by a folder with `wf`'s path — unless that entry was short-circuited by a
`Replace`, in which case the entry's first mutator is that `Replace`. -/
theorem c5_scope_filtering :
    (∀ (collections : List (String × List EnvironmentVariableMutator))
       (ow : WorkspaceFolder) (v : String)
       (entry : List ExtensionOwnedEnvironmentVariableMutator)
       (om : ExtensionOwnedEnvironmentVariableMutator) (wf : WorkspaceFolder),
       alistGet (mergedEnvironmentVariableCollection collections (some ow)) v =
           some entry →
       om ∈ entry → om.scope = some wf → wf.fsPath = ow.fsPath) ∧
    (∀ (collections : List (String × List EnvironmentVariableMutator))
       (owning : Option WorkspaceFolder) (ext : String)
       (col : List EnvironmentVariableMutator) (m : EnvironmentVariableMutator)
       (wf : WorkspaceFolder),
       (ext, col) ∈ collections → m ∈ col → m.scope = some wf →
       (owning = none ∨ ∃ ow, owning = some ow ∧ ow.fsPath = wf.fsPath) →
       ∃ entry,
         alistGet (mergedEnvironmentVariableCollection collections owning)
             m.variable_ = some entry ∧
           (toOwnedMutator ext m ∈ entry ∨ entryStartsWithReplace entry = true)) := by
  constructor
  · intro collections ow v entry om wf hget hom hscope
    have := merged_scope_invariant collections (some ow) (v, entry)
      (alistGet_mem hget) om hom
    rw [hscope] at this
    simpa [scopeMatchesOwning] using this
  · intro collections owning ext col m wf hcol hmem hsc howning
    have hscope : scopeMatchesOwning owning m.scope = true := by
      rcases howning with rfl | ⟨ow, rfl, hpath⟩
      · rfl
      · rw [hsc]
        simp [scopeMatchesOwning, hpath]
    obtain ⟨c1, c2, rfl⟩ := List.append_of_mem hcol
    show ∃ entry,
      alistGet ((c1 ++ (ext, col) :: c2).foldl (mergeCollection owning) [])
          m.variable_ = some entry ∧
        (toOwnedMutator ext m ∈ entry ∨ entryStartsWithReplace entry = true)
    rw [List.foldl_append, List.foldl_cons]
    exact foldl_preserves
      (P := fun s : VarMap => ∃ e, alistGet s m.variable_ = some e ∧
        (toOwnedMutator ext m ∈ e ∨ entryStartsWithReplace e = true))
      (fun s c hs => mergeCollection_preserves_entry_fact owning c s hs) c2 _
      (mergeCollection_establishes_entry_fact hmem hscope
        (List.foldl (mergeCollection owning) [] c1))

theorem c5_witness :
    (⟨"/w", 0⟩ : WorkspaceFolder).fsPath = (⟨"/w", 1⟩ : WorkspaceFolder).fsPath ∧
    (∃ entry,
      alistGet (mergedEnvironmentVariableCollection
          [("ext.s", [⟨"FOO", EnvironmentVariableMutatorType.Append, "1",
            some ⟨"/w", 0⟩⟩])] none) "FOO" = some entry ∧
        (toOwnedMutator "ext.s"
            ⟨"FOO", EnvironmentVariableMutatorType.Append, "1", some ⟨"/w", 0⟩⟩ ∈ entry ∨
          entryStartsWithReplace entry = true)) :=
  ⟨c5_scope_filtering.1
      [("ext.s", [⟨"FOO", EnvironmentVariableMutatorType.Append, "1", some ⟨"/w", 0⟩⟩])]
      ⟨"/w", 1⟩ "FOO"
      [⟨"ext.s", "1", EnvironmentVariableMutatorType.Append, some ⟨"/w", 0⟩, "FOO"⟩]
      ⟨"ext.s", "1", EnvironmentVariableMutatorType.Append, some ⟨"/w", 0⟩, "FOO"⟩
      ⟨"/w", 0⟩ (by decide) (by decide) (by decide),
    c5_scope_filtering.2
      [("ext.s", [⟨"FOO", EnvironmentVariableMutatorType.Append, "1", some ⟨"/w", 0⟩⟩])]
      none "ext.s" [⟨"FOO", EnvironmentVariableMutatorType.Append, "1", some ⟨"/w", 0⟩⟩]
      ⟨"FOO", EnvironmentVariableMutatorType.Append, "1", some ⟨"/w", 0⟩⟩
      ⟨"/w", 0⟩ (by decide) (by decide) (by decide) (Or.inl rfl)⟩

/-! ## Apply engine lemmas -/

/-- Splitting the inner mutator loop: a failure in the first part short-circuits. -/
theorem applyMutators_append {ε : Type} (r : Option (String → Except ε String))
    (key : String) (l1 l2 : List ExtensionOwnedEnvironmentVariableMutator) :
    ∀ env : Env, applyMutators r key env (l1 ++ l2) =
      match applyMutators r key env l1 with
      | (env2, none) => applyMutators r key env2 l2
      | (env2, some e) => (env2, some e) := by
  induction l1 with
  | nil => intro env; simp [applyMutators]
  | cons m rest ih =>
    intro env
    simp only [List.cons_append, applyMutators]
    cases resolveValue r m.value with
    | error e => rfl
    | ok value => exact ih _

theorem applyMutators_append_ok {ε : Type} {r : Option (String → Except ε String)}
    {key : String} {l1 : List ExtensionOwnedEnvironmentVariableMutator}
    {env env1 : Env} (l2 : List ExtensionOwnedEnvironmentVariableMutator)
    (h : applyMutators r key env l1 = (env1, none)) :
    applyMutators r key env (l1 ++ l2) = applyMutators r key env1 l2 := by
  rw [applyMutators_append, h]

/-- Splitting the outer variable loop: a failure in the first part short-circuits. -/
theorem applyVariables_append {ε : Type} (iw : Bool) (lower : List (String × String))
    (r : Option (String → Except ε String)) (l1 l2 : VarMap) :
    ∀ env : Env, applyVariables iw lower r env (l1 ++ l2) =
      match applyVariables iw lower r env l1 with
      | (env2, none) => applyVariables iw lower r env2 l2
      | (env2, some e) => (env2, some e) := by
  induction l1 with
  | nil => intro env; simp [applyVariables]
  | cons p rest ih =>
    intro env
    obtain ⟨v, mutators⟩ := p
    simp only [List.cons_append, applyVariables]
    rcases applyMutators r (actualVariableName iw lower v) env mutators with ⟨env2, oe⟩
    cases oe with
    | none => exact ih env2
    | some e => rfl

theorem applyVariables_append_ok {ε : Type} {iw : Bool}
    {lower : List (String × String)} {r : Option (String → Except ε String)}
    {l1 : VarMap} {env env1 : Env} (l2 : VarMap)
    (h : applyVariables iw lower r env l1 = (env1, none)) :
    applyVariables iw lower r env (l1 ++ l2) = applyVariables iw lower r env1 l2 := by
  rw [applyVariables_append, h]

/-- **C3**: end-to-end scenario: `ext.a` contributes `Prepend "1"` for `FOO`, `ext.b`
contributes `Append "2"`; merging in order a then b (no owning scope, no mutator
scopes) and applying with no resolver to an environment with `FOO = "X"` yields
`FOO = "1X2"` (shown on the case-sensitive and the case-insensitive platform). -/
theorem c3_end_to_end :
    applyToProcessEnvironment false
        (mergedEnvironmentVariableCollection
          [("ext.a", [⟨"FOO", EnvironmentVariableMutatorType.Prepend, "1", none⟩]),
           ("ext.b", [⟨"FOO", EnvironmentVariableMutatorType.Append, "2", none⟩])] none)
        [("FOO", "X")] (none : Option (String → Except Unit String)) =
      ([("FOO", "1X2")], none) ∧
    applyToProcessEnvironment true
        (mergedEnvironmentVariableCollection
          [("ext.a", [⟨"FOO", EnvironmentVariableMutatorType.Prepend, "1", none⟩]),
           ("ext.b", [⟨"FOO", EnvironmentVariableMutatorType.Append, "2", none⟩])] none)
        [("FOO", "X")] (none : Option (String → Except Unit String)) =
      ([("FOO", "1X2")], none) := by
  constructor <;> decide

/-- **C2**: if the resolver rejects on mutator `m`, the rejection propagates
immediately and aborts the rest of the apply call: the result is exactly the
environment accumulated by the variables fully processed before `m`'s variable
(`env1`) plus `m`'s variable's already-applied mutator prefix (`env2`), paired with
the resolver's error; the failing mutator, the rest of its variable's sequence
(`mpost`) and all later variables (`vpost`) contribute nothing. -/
theorem c2_resolver_failure_aborts {ε : Type} (isWindows : Bool) (pre vpost : VarMap)
    (v : String) (mpre mpost : List ExtensionOwnedEnvironmentVariableMutator)
    (m : ExtensionOwnedEnvironmentVariableMutator)
    (env env1 env2 : Env) (f : String → Except ε String) (e : ε)
    (h1 : applyVariables isWindows (if isWindows then buildLowerToActual env else [])
        (some f) env pre = (env1, none))
    (h2 : applyMutators (some f)
        (actualVariableName isWindows
          (if isWindows then buildLowerToActual env else []) v) env1 mpre =
      (env2, none))
    (h3 : f m.value = Except.error e) :
    applyToProcessEnvironment isWindows (pre ++ (v, mpre ++ m :: mpost) :: vpost) env
        (some f) = (env2, some e) := by
  unfold applyToProcessEnvironment
  rw [applyVariables_append_ok ((v, mpre ++ m :: mpost) :: vpost) h1]
  show (match applyMutators (some f)
      (actualVariableName isWindows
        (if isWindows then buildLowerToActual env else []) v) env1
      (mpre ++ m :: mpost) with
    | (env2, some e) => (env2, some e)
    | (env2, none) => applyVariables isWindows
        (if isWindows then buildLowerToActual env else []) (some f) env2 vpost) =
    (env2, some e)
  rw [applyMutators_append_ok (m :: mpost) h2]
  show (match applyMutators (some f)
      (actualVariableName isWindows
        (if isWindows then buildLowerToActual env else []) v) env2 (m :: mpost) with
    | (env2, some e) => (env2, some e)
    | (env2, none) => applyVariables isWindows
        (if isWindows then buildLowerToActual env else []) (some f) env2 vpost) =
    (env2, some e)
  simp only [applyMutators, resolveValue, h3]

theorem c2_witness :
    applyToProcessEnvironment false
        ([("A", [⟨"e1", "a", EnvironmentVariableMutatorType.Append, none, "A"⟩])] ++
          ("B", [⟨"e2", "b", EnvironmentVariableMutatorType.Append, none, "B"⟩] ++
            ⟨"e2", "bad", EnvironmentVariableMutatorType.Append, none, "B"⟩ ::
              [⟨"e2", "c", EnvironmentVariableMutatorType.Append, none, "B"⟩]) ::
            [("C", [⟨"e3", "d", EnvironmentVariableMutatorType.Append, none, "C"⟩])])
        [] (some (fun s => if s = "bad" then Except.error 1 else Except.ok s)) =
      ([("A", "a"), ("B", "b")], some 1) :=
  c2_resolver_failure_aborts false
    [("A", [⟨"e1", "a", EnvironmentVariableMutatorType.Append, none, "A"⟩])]
    [("C", [⟨"e3", "d", EnvironmentVariableMutatorType.Append, none, "C"⟩])]
    "B" [⟨"e2", "b", EnvironmentVariableMutatorType.Append, none, "B"⟩]
    [⟨"e2", "c", EnvironmentVariableMutatorType.Append, none, "B"⟩]
    ⟨"e2", "bad", EnvironmentVariableMutatorType.Append, none, "B"⟩
    [] [("A", "a")] [("A", "a"), ("B", "b")]
    (fun s => if s = "bad" then Except.error 1 else Except.ok s) 1
    (by decide) (by decide) rfl

/-- If no environment key lowercases to `l`, the lowercase table has no entry for `l`. -/
theorem alistGet_buildLower_none {env : Env} {l : String}
    (h : ∀ p ∈ env, toLowerCase p.1 ≠ l) :
    alistGet (buildLowerToActual env) l = none := by
  show alistGet (env.foldl (fun acc p => alistSet acc (toLowerCase p.1) p.1) []) l = none
  refine foldl_preserves_mem
    (P := fun s : List (String × String) => alistGet s l = none) env ?_ [] rfl
  intro s p hp hs
  rw [alistGet_set_ne _ _ (h p hp), hs]

/-- Every value stored in the lowercase table is an existing environment key. -/
theorem buildLower_value_is_key {env : Env} {l k : String}
    (h : alistGet (buildLowerToActual env) l = some k) : k ∈ env.map Prod.fst := by
  revert h
  show alistGet (env.foldl (fun acc p => alistSet acc (toLowerCase p.1) p.1) []) l =
      some k → k ∈ env.map Prod.fst
  refine foldl_preserves_mem
    (P := fun s : List (String × String) =>
      alistGet s l = some k → k ∈ env.map Prod.fst) env ?_ [] ?_
  · intro s p hp hs hget
    by_cases hkey : toLowerCase p.1 = l
    · subst hkey
      rw [alistGet_set_self] at hget
      exact (Option.some.inj hget) ▸ List.mem_map.mpr ⟨p, hp, rfl⟩
    · rw [alistGet_set_ne _ _ hkey] at hget
      exact hs hget
  · intro hget
    simp [alistGet] at hget

/-- **C6**: case-insensitive apply on the Windows-family platform. (i) When the
one-time lowercase table maps the variable's lowercasing to a stored key `k` (with `k`
nonempty), the mutation targets `k`; (ii) every key stored in that table is an existing
environment key, so no new key is created by such a match; (iii) when no existing key
matches case-insensitively, the merged collection's variable name is used verbatim;
(iv) concretely, a mutator for `"Path"` applied to an environment containing `"PATH"`
mutates `"PATH"` and does not create a `"Path"` key. -/
theorem c6_case_insensitive_apply :
    (∀ (env : Env) (v k : String),
      alistGet (buildLowerToActual env) (toLowerCase v) = some k → k ≠ "" →
      actualVariableName true (buildLowerToActual env) v = k) ∧
    (∀ (env : Env) (l k : String),
      alistGet (buildLowerToActual env) l = some k → k ∈ env.map Prod.fst) ∧
    (∀ (env : Env) (v : String),
      (∀ p ∈ env, toLowerCase p.1 ≠ toLowerCase v) →
      actualVariableName true (buildLowerToActual env) v = v) ∧
    applyToProcessEnvironment true
        [("Path", [⟨"ext", "Y", EnvironmentVariableMutatorType.Append, none, "Path"⟩])]
        [("PATH", "X")] (none : Option (String → Except Unit String)) =
      ([("PATH", "XY")], none) := by
  refine ⟨?_, ?_, ?_, by decide⟩
  · intro env v k hk hne
    simp [actualVariableName, hk, hne]
  · intro env l k h
    exact buildLower_value_is_key h
  · intro env v h
    simp [actualVariableName, alistGet_buildLower_none h]

theorem c6_witness :
    actualVariableName true (buildLowerToActual [("PATH", "X")]) "Path" = "PATH" ∧
    actualVariableName true (buildLowerToActual [("HOME", "h")]) "Path" = "Path" :=
  ⟨c6_case_insensitive_apply.1 [("PATH", "X")] "Path" "PATH" (by decide) (by decide),
   c6_case_insensitive_apply.2.2.1 [("HOME", "h")] "Path" (by decide)⟩

/-- **C10**: the lowercase table is built exactly once, from the environment as it is
before any mutator runs: splitting the merged variable list anywhere, the second part
is still resolved against the table of the original environment (first conjunct).
Consequently a key created during the same apply call is never case-matched by a later
variable: on an initially empty environment, variables `"Path"` then `"PATH"` produce
two distinct keys (second conjunct). -/
theorem c10_lower_table_built_once :
    (∀ (ε : Type) (vm1 vm2 : VarMap) (env : Env)
       (r : Option (String → Except ε String)),
      applyToProcessEnvironment true (vm1 ++ vm2) env r =
        match applyVariables true (buildLowerToActual env) r env vm1 with
        | (env2, none) => applyVariables true (buildLowerToActual env) r env2 vm2
        | (env2, some e) => (env2, some e)) ∧
    applyToProcessEnvironment true
        [("Path", [⟨"ext", "a", EnvironmentVariableMutatorType.Append, none, "Path"⟩]),
         ("PATH", [⟨"ext", "b", EnvironmentVariableMutatorType.Append, none, "PATH"⟩])]
        [] (none : Option (String → Except Unit String)) =
      ([("Path", "a"), ("PATH", "b")], none) := by
  refine ⟨?_, by decide⟩
  intro ε vm1 vm2 env r
  unfold applyToProcessEnvironment
  rw [if_pos rfl]
  exact applyVariables_append true (buildLowerToActual env) r vm1 vm2 env

/-! ## Diff engine lemmas -/

/-- Comparing an array with itself finds no missing mutators. -/
theorem getMissing_self (ms : List ExtensionOwnedEnvironmentVariableMutator) :
    getMissingMutatorsFromArray ms (some ms) = none := by
  have hfilter : ms.filter
      (fun m => !((ms.map (fun m => m.extensionIdentifier)).contains
        m.extensionIdentifier)) = [] := by
    rw [List.filter_eq_nil_iff]
    intro m hm
    have hmem : m.extensionIdentifier ∈ ms.map (fun m => m.extensionIdentifier) :=
      List.mem_map.mpr ⟨m, hm, rfl⟩
    have hcon : (ms.map (fun m => m.extensionIdentifier)).contains
        m.extensionIdentifier = true := List.elem_eq_true_of_mem hmem
    intro hfalse
    rw [hcon] at hfalse
    simp at hfalse
  simp only [getMissingMutatorsFromArray]
  rw [hfilter]
  rfl

/-- Folding `alistSet` over mutators whose extension never equals `k` leaves lookups
at `k` unchanged. -/
theorem alistGet_extMapFold_not_mem {k : String} :
    ∀ (ms : List ExtensionOwnedEnvironmentVariableMutator),
      k ∉ ms.map (fun x => x.extensionIdentifier) →
      ∀ acc, alistGet
          (ms.foldl (fun a x => alistSet a x.extensionIdentifier x) acc) k =
        alistGet acc k := by
  intro ms
  induction ms with
  | nil => intro _ acc; rfl
  | cons x rest ih =>
    intro h acc
    rw [List.map_cons, List.mem_cons, not_or] at h
    obtain ⟨h1, h2⟩ := h
    simp only [List.foldl_cons]
    rw [ih h2 (alistSet acc x.extensionIdentifier x),
      alistGet_set_ne _ _ (fun he => h1 he.symm)]

/-- With pairwise-distinct extension identifiers, the extension map of
`getChangedMutatorsFromArray` sends each mutator's extension to that mutator. -/
theorem alistGet_extMapFold {m : ExtensionOwnedEnvironmentVariableMutator} :
    ∀ (ms : List ExtensionOwnedEnvironmentVariableMutator),
      (ms.map (fun x => x.extensionIdentifier)).Nodup → m ∈ ms →
      ∀ acc, alistGet
          (ms.foldl (fun a x => alistSet a x.extensionIdentifier x) acc)
          m.extensionIdentifier = some m := by
  intro ms
  induction ms with
  | nil => intro _ hm; cases hm
  | cons x rest ih =>
    intro hnd hm acc
    rw [List.map_cons] at hnd
    obtain ⟨hx, hrest⟩ := List.nodup_cons.mp hnd
    simp only [List.foldl_cons]
    rcases List.mem_cons.mp hm with rfl | hm'
    · rw [alistGet_extMapFold_not_mem rest hx, alistGet_set_self]
    · exact ih hrest hm' _

theorem alistGet_extensionToMutatorMap
    {ms : List ExtensionOwnedEnvironmentVariableMutator}
    {m : ExtensionOwnedEnvironmentVariableMutator}
    (hnd : (ms.map (fun x => x.extensionIdentifier)).Nodup) (hm : m ∈ ms) :
    alistGet (extensionToMutatorMap ms) m.extensionIdentifier = some m :=
  alistGet_extMapFold ms hnd hm []

theorem mutatorsDiffer_self (m : ExtensionOwnedEnvironmentVariableMutator) :
    mutatorsDiffer m m = false := by
  simp [mutatorsDiffer]

/-- Comparing an array with itself finds no changed mutators (given the merged-map
invariant that extensions are pairwise distinct within one entry). -/
theorem getChanged_self {ms : List ExtensionOwnedEnvironmentVariableMutator}
    (hnd : (ms.map (fun x => x.extensionIdentifier)).Nodup) :
    getChangedMutatorsFromArray ms (some ms) = none := by
  have hfm : ms.filterMap (fun mutator =>
      match alistGet (extensionToMutatorMap ms) mutator.extensionIdentifier with
      | some otherMutator =>
        if mutatorsDiffer mutator otherMutator then some otherMutator else none
      | none => none) = [] := by
    rw [List.filterMap_eq_nil_iff]
    intro m hm
    rw [alistGet_extensionToMutatorMap hnd hm]
    simp [mutatorsDiffer_self]
  simp [getChangedMutatorsFromArray, hfm]

/-- `diff` returns `undefined` exactly when the three computed maps are all empty. -/
theorem diff_none_iff (current other : VarMap) :
    diff current other = none ↔
      computeAdded current other = [] ∧ computeChanged current other = [] ∧
        computeRemoved current other = [] := by
  unfold diff
  by_cases h : ((computeAdded current other).isEmpty &&
      (computeChanged current other).isEmpty &&
      (computeRemoved current other).isEmpty) = true
  · rw [if_pos h]
    simp only [Bool.and_eq_true] at h
    obtain ⟨⟨h1, h2⟩, h3⟩ := h
    simp [List.isEmpty_iff.mp h1, List.isEmpty_iff.mp h2, List.isEmpty_iff.mp h3]
  · rw [if_neg h]
    constructor
    · intro hc; cases hc
    · rintro ⟨h1, h2, h3⟩
      exact absurd (by simp [h1, h2, h3]) h

/-- The `added` map of a diff result is always the computed added map. -/
theorem diffAdded_diff (current other : VarMap) :
    diffAdded (diff current other) = computeAdded current other := by
  unfold diff
  split
  · next h =>
    simp only [Bool.and_eq_true] at h
    simp [diffAdded, List.isEmpty_iff.mp h.1.1]
  · next => rfl

/-- The `removed` map of a diff result is always the computed removed map. -/
theorem diffRemoved_diff (current other : VarMap) :
    diffRemoved (diff current other) = computeRemoved current other := by
  unfold diff
  split
  · next h =>
    simp only [Bool.and_eq_true] at h
    simp [diffRemoved, List.isEmpty_iff.mp h.2]
  · next => rfl

/-- **C7**: diff symmetry: for any two merged collections, the `added` map of
`diff(current, other)` equals the `removed` map of `diff(other, current)` — the same
variables in the same order, each with the same ordered extension-keyed mutator list
(an absent "no diff" result contributing empty maps). -/
theorem c7_diff_added_removed_symmetry (current other : VarMap) :
    diffAdded (diff current other) = diffRemoved (diff other current) := by
  rw [diffAdded_diff, diffRemoved_diff]
  rfl

/-- **C8**: diff idempotence and the "no diff" representation. First part: for every
merged collection `X` (satisfying the merged-collection invariants: variables are
pairwise distinct keys, and within one variable's sequence extension identifiers are
pairwise distinct), `diff X X` is the absent value `none`, not a result with three
empty maps. Second part: in general `diff` returns `none` exactly when the computed
`added`, `changed` and `removed` maps are all empty. -/
theorem c8_diff_self_none :
    (∀ X : VarMap, (X.map Prod.fst).Nodup →
      (∀ p ∈ X, (p.2.map (fun m => m.extensionIdentifier)).Nodup) →
      diff X X = none) ∧
    (∀ current other : VarMap, diff current other = none ↔
      computeAdded current other = [] ∧ computeChanged current other = [] ∧
        computeRemoved current other = []) := by
  refine ⟨?_, diff_none_iff⟩
  intro X hkeys hexts
  rw [diff_none_iff]
  have hget : ∀ p ∈ X, alistGet X p.1 = some p.2 := fun p hp =>
    alistGet_eq_of_nodup hkeys hp
  refine ⟨?_, ?_, ?_⟩
  · show X.filterMap (fun p =>
      (getMissingMutatorsFromArray p.2 (alistGet X p.1)).map (fun r => (p.1, r))) = []
    rw [List.filterMap_eq_nil_iff]
    intro p hp
    rw [hget p hp, getMissing_self]
    rfl
  · show X.filterMap (fun p =>
      (getChangedMutatorsFromArray p.2 (alistGet X p.1)).map (fun r => (p.1, r))) = []
    rw [List.filterMap_eq_nil_iff]
    intro p hp
    rw [hget p hp, getChanged_self (hexts p hp)]
    rfl
  · show X.filterMap (fun p =>
      (getMissingMutatorsFromArray p.2 (alistGet X p.1)).map (fun r => (p.1, r))) = []
    rw [List.filterMap_eq_nil_iff]
    intro p hp
    rw [hget p hp, getMissing_self]
    rfl

theorem c8_witness :
    diff [("A", [⟨"e", "1", EnvironmentVariableMutatorType.Append, none, "A"⟩])]
        [("A", [⟨"e", "1", EnvironmentVariableMutatorType.Append, none, "A"⟩])] =
      none :=
  c8_diff_self_none.1
    [("A", [⟨"e", "1", EnvironmentVariableMutatorType.Append, none, "A"⟩])]
    (by decide) (by decide)

/-- Unfolding the optional result of `getChangedMutatorsFromArray` on a present other
array: the `getD []` view is exactly the collected list. -/
theorem ite_isEmpty_getD {α : Type} (l : List α) :
    (if l.isEmpty then (none : Option (List α)) else some l).getD [] = l := by
  by_cases h : l.isEmpty = true
  · rw [if_pos h]
    exact (List.isEmpty_iff.mp h).symm
  · rw [if_neg h]
    rfl

theorem getChanged_some_getD (cms oms : List ExtensionOwnedEnvironmentVariableMutator) :
    (getChangedMutatorsFromArray cms (some oms)).getD [] =
      cms.filterMap (fun mutator =>
        match alistGet (extensionToMutatorMap oms) mutator.extensionIdentifier with
        | some otherMutator =>
          if mutatorsDiffer mutator otherMutator then some otherMutator else none
        | none => none) :=
  ite_isEmpty_getD _

/-- **C9**: the changed map reports the new value. First part: with extension `E`
contributing `Append "x"` for `FOO` in `current` and `Append "y"` in `other`, the
`changed` map of `diff current other` has exactly one entry for `FOO`: `E`'s mutator
from `other` (value `"y"`), and `added`/`removed` are empty. Second part: whenever a
mutator of `current` has a same-extension counterpart in `other`'s extension map that
differs (in type, value, or workspace-folder index of its scope), that counterpart —
the `other` mutator — is collected. Third part: everything collected arises this way
from an `other` mutator. -/
theorem c9_changed_reports_new_value :
    diff [("FOO", [⟨"E", "x", EnvironmentVariableMutatorType.Append, none, "FOO"⟩])]
        [("FOO", [⟨"E", "y", EnvironmentVariableMutatorType.Append, none, "FOO"⟩])] =
      some { added := [],
             changed :=
               [("FOO", [⟨"E", "y", EnvironmentVariableMutatorType.Append, none,
                 "FOO"⟩])],
             removed := [] } ∧
    (∀ (cms oms : List ExtensionOwnedEnvironmentVariableMutator)
       (m om : ExtensionOwnedEnvironmentVariableMutator),
      m ∈ cms →
      alistGet (extensionToMutatorMap oms) m.extensionIdentifier = some om →
      mutatorsDiffer m om = true →
      om ∈ (getChangedMutatorsFromArray cms (some oms)).getD []) ∧
    (∀ (cms oms : List ExtensionOwnedEnvironmentVariableMutator)
       (r : ExtensionOwnedEnvironmentVariableMutator),
      r ∈ (getChangedMutatorsFromArray cms (some oms)).getD [] →
      ∃ m ∈ cms,
        alistGet (extensionToMutatorMap oms) m.extensionIdentifier = some r ∧
          mutatorsDiffer m r = true) := by
  refine ⟨by decide, ?_, ?_⟩
  · intro cms oms m om hm hget hdiff
    rw [getChanged_some_getD]
    refine List.mem_filterMap.mpr ⟨m, hm, ?_⟩
    rw [hget]
    simp [hdiff]
  · intro cms oms r hr
    rw [getChanged_some_getD] at hr
    obtain ⟨m, hm, hf⟩ := List.mem_filterMap.mp hr
    refine ⟨m, hm, ?_⟩
    cases hg : alistGet (extensionToMutatorMap oms) m.extensionIdentifier with
    | none =>
      rw [hg] at hf
      have hf2 : (none : Option ExtensionOwnedEnvironmentVariableMutator) = some r := hf
      cases hf2
    | some om =>
      rw [hg] at hf
      have hf2 : (if mutatorsDiffer m om = true then some om else none) = some r := hf
      by_cases hd : mutatorsDiffer m om = true
      · rw [if_pos hd] at hf2
        obtain rfl : om = r := Option.some.inj hf2
        exact ⟨rfl, hd⟩
      · rw [if_neg hd] at hf2
        cases hf2

theorem c9_witness :
    (⟨"E", "y", EnvironmentVariableMutatorType.Append, none, "FOO"⟩ :
        ExtensionOwnedEnvironmentVariableMutator) ∈
      (getChangedMutatorsFromArray
          [⟨"E", "x", EnvironmentVariableMutatorType.Append, none, "FOO"⟩]
          (some [⟨"E", "y", EnvironmentVariableMutatorType.Append, none,
            "FOO"⟩])).getD [] :=
  c9_changed_reports_new_value.2.1
    [⟨"E", "x", EnvironmentVariableMutatorType.Append, none, "FOO"⟩]
    [⟨"E", "y", EnvironmentVariableMutatorType.Append, none, "FOO"⟩]
    ⟨"E", "x", EnvironmentVariableMutatorType.Append, none, "FOO"⟩
    ⟨"E", "y", EnvironmentVariableMutatorType.Append, none, "FOO"⟩
    (by decide) (by decide) (by decide)
